import Mathlib

/-!
Verification of `backend/parallel_analyzer.py` (parallel log analyzer).

The Python source is shallowly embedded below.  Records are Lean `String`s,
Python dictionaries keyed by strings become association lists with
dictionary update semantics (`setval`), and the regular expressions used by
the program (the IPv4-shaped pattern `(?:\d{1,3}\.){3}\d{1,3}`, the
"Failed password for.*from (IP)" search, and the purely-numeric pattern
`^-?\d+(\.\d+)?$`) are embedded as executable character-list matchers with
Python's leftmost / greedy semantics.

Library calls whose internals are not part of the repository
(`pandas.read_csv`, `csv.Sniffer`) are modelled by their contract at the
granularity the program observes, and each such model carries a comment
saying exactly what is modelled.
-/

namespace PLA

/-! ## Basic character and string helpers -/

/-- The characters Python's `\s` (and `str.strip`) treats as whitespace
(ASCII range; the inputs are ASCII text). -/
def pyWS (c : Char) : Bool :=
  c = ' ' || c = '\t' || c = '\n' || c = '\r' || c = '\x0b' || c = '\x0c'

/-- Python `str.strip()` on a character list. -/
def pyStripL (cs : List Char) : List Char :=
  ((cs.dropWhile pyWS).reverse.dropWhile pyWS).reverse

/-- Python `str.strip()`. -/
def pyStrip (s : String) : String := String.mk (pyStripL s.toList)

/-- Python `str.lower()` (ASCII). -/
def pyLower (s : String) : String := String.mk (s.toList.map Char.toLower)

/-- Python `str.isdigit()` (ASCII): nonempty and all digits. -/
def isPyDigits (s : String) : Bool := !s.toList.isEmpty && s.toList.all Char.isDigit

/-- Full match of the purely-numeric pattern `^-?\d+(\.\d+)?$`. -/
def numericFullL (cs : List Char) : Bool :=
  let cs1 := match cs with | '-' :: r => r | r => r
  let d := cs1.takeWhile Char.isDigit
  if d.isEmpty then false
  else match cs1.drop d.length with
    | [] => true
    | '.' :: r2 => !r2.isEmpty && r2.all Char.isDigit
    | _ => false

/-- `re.match(r"^-?\d+(\.\d+)?$", s)` as a boolean. -/
def numericFull (s : String) : Bool := numericFullL s.toList

/-! ## The IPv4-shaped pattern `(?:\d{1,3}\.){3}\d{1,3}`

Matching one `\d{1,3}\.` group at a position is deterministic: the group
must consume every leading digit (stopping short would leave a digit where
the literal `.` is required), so it succeeds exactly when there are 1..3
leading digits followed by `'.'`.  The final `\d{1,3}` greedily takes
`min 3` of the leading digits. -/

/-- Match one `\d{1,3}\.` group; returns (consumed, rest). -/
def octetDot (cs : List Char) : Option (List Char × List Char) :=
  let d := cs.takeWhile Char.isDigit
  if 1 ≤ d.length ∧ d.length ≤ 3 then
    match cs.drop d.length with
    | '.' :: rest => some (d ++ ['.'], rest)
    | _ => none
  else none

/-- Match the trailing `\d{1,3}` greedily; returns (consumed, rest). -/
def lastOctet (cs : List Char) : Option (List Char × List Char) :=
  let d := (cs.takeWhile Char.isDigit).take 3
  if d.isEmpty then none else some (d, cs.drop d.length)

/-- Match the whole IP pattern at the start of `cs`; returns
(matched text, rest).  This is `re.match(IP_REGEX, ...)`. -/
def matchIPAt (cs : List Char) : Option (List Char × List Char) :=
  match octetDot cs with
  | none => none
  | some (a, r1) =>
    match octetDot r1 with
    | none => none
    | some (b, r2) =>
      match octetDot r2 with
      | none => none
      | some (c, r3) =>
        match lastOctet r3 with
        | none => none
        | some (d, r4) => some (a ++ b ++ c ++ d, r4)

/-- `re.findall(IP_REGEX, ...)`: leftmost non-overlapping matches, scanning
one character forward after a failed position.  The fuel argument (always
called with the list length, which bounds the number of scan steps) keeps
the recursion structural. -/
def findallAux : Nat → List Char → List String
  | 0, _ => []
  | _ + 1, [] => []
  | f + 1, c :: cs =>
    match matchIPAt (c :: cs) with
    | some (m, rest) => String.mk m :: findallAux f rest
    | none => findallAux f cs

/-- `re.findall(IP_REGEX, line)`. -/
def findallIP (cs : List Char) : List String := findallAux cs.length cs

/-! ## The search `re.search(r"Failed password for.*from (IP)", line)`

`re.search` tries each start position left to right; the pattern begins
with the literal `"Failed password for"`, then a greedy `.*` (which cannot
cross a newline), then the literal `"from "` and the captured IP.  Greedy
`.*` means the *last* `"from "+IP` inside the newline-free stretch after
the literal is captured. -/

def fpfLit : List Char := "Failed password for".toList

def fromLit : List Char := "from ".toList

def startsWithL : List Char → List Char → Bool
  | [], _ => true
  | _ :: _, [] => false
  | p :: ps, c :: cs => p = c && startsWithL ps cs

/-- The IP captured at the rightmost `"from "+IP` occurrence in `cs`. -/
def lastFromIP : List Char → Option String
  | [] => none
  | c :: cs =>
    match lastFromIP cs with
    | some ip => some ip
    | none =>
      if startsWithL fromLit (c :: cs) then
        match matchIPAt ((c :: cs).drop 5) with
        | some (m, _) => some (String.mk m)
        | none => none
      else none

/-- `re.search(pattern, line)` returning `m.group(1)`. -/
def searchFailed : List Char → Option String
  | [] => none
  | c :: cs =>
    if startsWithL fpfLit (c :: cs) then
      match lastFromIP (((c :: cs).drop 19).takeWhile (fun ch => ch ≠ '\n')) with
      | some ip => some ip
      | none => searchFailed cs
    else searchFailed cs

/-! ## Tallies: Python dictionaries from IP string to count -/

/-- A Python dict `{ip: count}` as an association list in insertion order;
keys are unique for every dict the program builds. -/
abbrev Tally := List (String × Nat)

/-- `d.get(k, 0)`. -/
def tget (t : Tally) (k : String) : Nat :=
  match t.find? (fun p => p.1 == k) with
  | some p => p.2
  | none => 0

/-- `d[k] = v`: update in place if present, else append. -/
def setval : Tally → String → Nat → Tally
  | [], k, v => [(k, v)]
  | (k', v') :: t, k, v => if k' = k then (k, v) :: t else (k', v') :: setval t k v

/-- `d[k] = d.get(k, 0) + 1`. -/
def incr (t : Tally) (k : String) : Tally := setval t k (tget t k + 1)

/-- `k in d`. -/
def hasKey (t : Tally) (k : String) : Bool := t.any (fun p => p.1 == k)

/-- Sum of the values bound to `k` (equals `tget` when keys are unique). -/
def keySum (t : Tally) (k : String) : Nat :=
  ((t.filter (fun p => p.1 == k)).map Prod.snd).sum

/-- One gather step of `main`: `for ip, c in r.items(): final[ip] = final.get(ip,0)+c`. -/
def addTally (acc r : Tally) : Tally :=
  r.foldl (fun a p => setval a p.1 (tget a p.1 + p.2)) acc

/-- Merging all per-worker tallies, in arrival order. -/
def mergeAll (rs : List Tally) : Tally := rs.foldl addTally []

/-- The final result: a non-empty tally, or the sentinel
`{"message": "No suspicious IPs or attack patterns detected."}`. -/
inductive AnalysisResult
  | tally (t : Tally)
  | sentinel
deriving DecidableEq

/-- `if not final: final = {"message": ...}`. -/
def finalize (t : Tally) : AnalysisResult := if t = [] then .sentinel else .tally t

/-- Content equality of results: same sentinel-ness and, for tallies, the
same count for every key (key order ignored). -/
def sameContent : AnalysisResult → AnalysisResult → Prop
  | .sentinel, .sentinel => True
  | .tally t1, .tally t2 => ∀ k, tget t1 k = tget t2 k
  | _, _ => False

/-! ## Partitioner: `chunks = [logs[i::size] for i in range(size)]` -/

/-- Python slice-with-step `l[0::w]` (take one element, skip `w - 1`).
The fuel argument (always instantiated with the list length, an upper
bound on the number of steps) keeps the recursion structural. -/
def sliceStepF {α : Type} : Nat → Nat → List α → List α
  | 0, _, _ => []
  | _ + 1, _, [] => []
  | f + 1, w, x :: xs => x :: sliceStepF f w (xs.drop (w - 1))

/-- Python `l[i::w]`: the partition of worker `i` out of `w`. -/
def pychunk {α : Type} (w i : Nat) (l : List α) : List α :=
  sliceStepF (l.drop i).length w (l.drop i)

/-! ## FormatSniffer -/

/-- Newline-join of the sample lines, as done by `"\n".join(log_chunk[:10])`. -/
def joinNL : List String → List Char
  | [] => []
  | [s] => s.toList
  | s :: s' :: rest => s.toList ++ '\n' :: joinNL (s' :: rest)

/-- The sample text used for classification and sniffing. -/
def sampleOf (chunk : List String) : List Char := joinNL (chunk.take 10)

/-- `re.search(r"\s{2,}", sample)`: two adjacent whitespace characters. -/
def hasAdjWS : List Char → Bool
  | c1 :: c2 :: rest => (pyWS c1 && pyWS c2) || hasAdjWS (c2 :: rest)
  | _ => false

/-- `any(d in sample for d in [",", "\t", ";"]) or re.search(r"\s{2,}", sample)`. -/
def isTabularSample (cs : List Char) : Bool :=
  cs.contains ',' || cs.contains '\t' || cs.contains ';' || hasAdjWS cs

/-- A delimiter: a single character, or the whitespace regex `r"\s+"`. -/
inductive Sep
  | char (c : Char)
  | ws
deriving DecidableEq

/-- `sniff_delimiter`.  Modelled: the `csv.Sniffer().sniff` attempt is
approximated by the function's own fallback chain (tab if present, else
semicolon, else comma, else whitespace); for every concrete sample used in
this file the sniffer and the fallback agree on the delimiter, and every
theorem quantifying over chunks takes the sniffed delimiter as given. -/
def sniffDelim (sample : List Char) : Sep :=
  if sample.contains '\t' then .char '\t'
  else if sample.contains ';' then .char ';'
  else if sample.contains ',' then .char ','
  else .ws

/-- Python `s.split(sep)` field splitting (no quote handling is modelled;
none of the inputs considered contain quotes). -/
def splitSepAux (sep : Char) : List Char → List Char → List String
  | acc, [] => [String.mk acc.reverse]
  | acc, c :: cs =>
    if c = sep then String.mk acc.reverse :: splitSepAux sep [] cs
    else splitSepAux sep (c :: acc) cs

def splitSep (sep : Char) (s : String) : List String := splitSepAux sep [] s.toList

/-- `re.split(r"\s+", line)` field splitting (runs of whitespace separate
fields; a leading run yields an empty first field).  Fuel keeps the
recursion structural; it is always called with the list length. -/
def splitWSAux : Nat → List Char → List Char → List String
  | 0, acc, _ => [String.mk acc.reverse]
  | _ + 1, acc, [] => [String.mk acc.reverse]
  | f + 1, acc, c :: cs =>
    if pyWS c then String.mk acc.reverse :: splitWSAux f [] (cs.dropWhile pyWS)
    else splitWSAux f (c :: acc) cs

def splitWS (s : String) : List String := splitWSAux s.toList.length [] s.toList

/-- Split one line into fields for the given delimiter. -/
def fields (sep : Sep) (s : String) : List String :=
  match sep with
  | .char c => splitSep c s
  | .ws => splitWS s

/-- The TabularView: ordered column names and rows aligned to them.
Cells are the strings the program observes via `str(...)`. -/
structure Table where
  cols : List String
  rows : List (List String)
deriving DecidableEq

/-- pandas turns an empty field into NaN, which prints as `"nan"`. -/
def naFix (s : String) : String := if s = "" then "nan" else s

/-- Pad a parsed row to the header width; missing fields are NaN (`"nan"`). -/
def padTo (n : Nat) (fs : List String) : List String :=
  (fs.map naFix) ++ List.replicate (n - fs.length) "nan"

/-- `pd.read_csv(StringIO("\n".join(log_chunk)), sep=sep, engine="python",
header=0)` followed by the two header normalisations of `analyze_logs`
(strip every column name; substitute `col0..colN-1` if every stripped name
is purely numeric).

Modelled contract of the python engine: the first line is the header; a
data row with more fields than the header raises `ParserError` (mapped to
`none`, as is an empty input); shorter rows are padded with NaN.  Quoting,
duplicate-column mangling and numeric type inference are not modelled;
the concrete inputs in this file avoid them (their cells print back
exactly as written). -/
def parseTable (sep : Sep) (chunk : List String) : Option Table :=
  match chunk with
  | [] => none
  | h :: rest =>
    let cols0 := (fields sep h).map pyStrip
    let cols := if cols0.all isPyDigits then
        (List.range cols0.length).map (fun i => "col" ++ toString i)
      else cols0
    if rest.any (fun line => cols.length < (fields sep line).length) then none
    else some { cols := cols, rows := rest.map (fun line => padTo cols.length (fields sep line)) }

/-! ## ColumnInferencer -/

def srcTokens : List String := ["src", "source", "sip", "src_ip", "source_ip"]

def atkTokens : List String := ["attack", "label", "cat", "class"]

/-- `pat in s` (substring containment). -/
def substrOfL (pat : List Char) : List Char → Bool
  | [] => startsWithL pat []
  | c :: cs => startsWithL pat (c :: cs) || substrOfL pat cs

def substrOf (pat s : String) : Bool := substrOfL pat.toList s.toList

/-- `row.get(c, "")`: look the column name up in the header, read the cell. -/
def cellD (cols row : List String) (c : String) : String :=
  match cols.findIdx? (fun c' => c' == c) with
  | some i => row.getD i ""
  | none => ""

/-- `df[c].astype(str)`: the column as a list of cell strings. -/
def colVals (T : Table) (c : String) : List String :=
  T.rows.map (fun r => cellD T.cols r c)

/-- `any(k in name for k in ("src", "source", "sip", "src_ip", "source_ip"))`. -/
def srcNameHit (n : String) : Bool := srcTokens.any (fun t => substrOf t n)

/-- `sample.str.count(IP_REGEX).sum()`: total number of non-overlapping
IP-shaped occurrences over the sampled values. -/
def ipOccCount (vals : List String) : Nat :=
  (vals.map (fun v => (findallIP v.toList).length)).sum

/-- `max(1, min(10, len(sample)//10))`. -/
def srcThreshold (vals : List String) : Nat := max 1 (min 10 (vals.length / 10))

/-- `find_src_col`. -/
def find_src_col (T : Table) : String :=
  let colsL := T.cols.map pyLower
  match colsL.findIdx? srcNameHit with
  | some i => T.cols.getD i ""
  | none =>
    match T.cols.find? (fun c =>
        srcThreshold ((colVals T c).take 200) ≤ ipOccCount ((colVals T c).take 200)) with
    | some c => c
    | none => T.cols.headD ""

def atkNameHit (n : String) : Bool := atkTokens.any (fun t => substrOf t n)

/-- `find_attack_col`: name-based first, else the rightmost of the last six
columns having at least one non-numeric sampled value, else absent. -/
def find_attack_col (T : Table) : Option String :=
  let colsL := T.cols.map pyLower
  match colsL.findIdx? atkNameHit with
  | some i => some (T.cols.getD i "")
  | none =>
    (T.cols.drop (T.cols.length - 6)).reverse.find?
      (fun c => ((colVals T c).take 500).any (fun v => !numericFull v))

/-! ## SuspiciousRecordDetector, tabular variant -/

def benignSet : List String := ["0", "-", "normal", "benign", "none", ""]

/-- `row.iloc[-6:]`. -/
def lastSix (row : List String) : List String := row.drop (row.length - 6)

/-- `any(t and not re.match(r"^-?\d+(\.\d+)?$", t) for t in tail)` with
`tail` the last six cells, stripped and lower-cased. -/
def tailHit (row : List String) : Bool :=
  (lastSix row).any (fun v => !(pyLower (pyStrip v) == "") && !numericFull (pyLower (pyStrip v)))

/-- One iteration of the `for _, row in df.iterrows()` loop. -/
def rowStep (cols : List String) (src : String) (atk : Option String)
    (t : Tally) (row : List String) : Tally :=
  let src_val := if cols.contains src then pyStrip (cellD cols row src) else ""
  if src_val = "" ∨ pyLower src_val = "nan" then t
  else
    match atk with
    | some ac =>
      if ac ≠ "" ∧ pyStrip (cellD cols row ac) ≠ "" then
        if pyLower (pyStrip (cellD cols row ac)) ∈ benignSet then t
        else incr t src_val
      else if tailHit row then incr t src_val else t
    | none => if tailHit row then incr t src_val else t

/-- The row-scanning loop of the tabular branch. -/
def rowScan (T : Table) : Tally :=
  T.rows.foldl (rowStep T.cols (find_src_col T) (find_attack_col T)) []

/-- Distinct values in first-appearance order. -/
def dedupL (l : List String) : List String :=
  l.foldl (fun acc v => if acc.contains v then acc else acc ++ [v]) []

/-- `re.match(IP_REGEX, str(ip))` as a boolean: IP-shaped at the start. -/
def ipAtStart (s : String) : Bool := (matchIPAt s.toList).isSome

/-- The frequency fallback over `df[src_col].astype(str).value_counts()`:
each distinct IP-shaped value occurring more than once enters the (empty)
tally with its frequency.  `value_counts` iterates values in descending
count order; the tally is materialised here in first-appearance order,
which binds exactly the same keys to the same counts (each distinct value
is written at most once). -/
def freqTally (vals : List String) : Tally :=
  (dedupL vals).foldl
    (fun t v => if ipAtStart v ∧ 1 < vals.count v then setval t v (vals.count v) else t) []

/-- The tabular branch after a successful parse: row scan, then the
frequency fallback if nothing was found and a source column is identified. -/
def analyzeTabular (T : Table) : Tally :=
  let t := rowScan T
  if t = [] ∧ find_src_col T ≠ "" then freqTally (colVals T (find_src_col T)) else t

/-! ## SuspiciousRecordDetector, free-form variant, and the except-fallback -/

/-- The multiset of IPs one free-form record contributes. -/
def lineIPs (line : String) : List String :=
  match searchFailed line.toList with
  | some ip => [ip]
  | none => findallIP line.toList

/-- One iteration of the free-form loop: `Failed password` match first,
else every IP-shaped substring. -/
def lineStep (t : Tally) (line : String) : Tally :=
  match searchFailed line.toList with
  | some ip => incr t ip
  | none => (findallIP line.toList).foldl incr t

/-- The free-form detector over a partition. -/
def freeformTally (chunk : List String) : Tally := chunk.foldl lineStep []

/-- The `except` recovery of the tabular branch: plain
`re.findall(IP_REGEX, line)` extraction over every raw record. -/
def fallbackTally (chunk : List String) : Tally :=
  chunk.foldl (fun t line => (findallIP line.toList).foldl incr t) []

/-- `analyze_logs`. -/
def analyzeLogs (log_chunk : List String) : Tally :=
  if isTabularSample (sampleOf log_chunk) then
    match parseTable (sniffDelim (sampleOf log_chunk)) log_chunk with
    | some df => analyzeTabular df
    | none => fallbackTally log_chunk
  else freeformTally log_chunk

/-- The root's scatter/gather pipeline of `main`: partition, run the
detector on each partition, merge the tallies, substitute the sentinel if
the merge is empty. -/
def pipeline (w : Nat) (logs : List String) : AnalysisResult :=
  finalize (mergeAll ((List.range w).map (fun i => analyzeLogs (pychunk w i logs))))

/-! ## Loader error taxonomy -/

/-- The Python exception kinds `load_data` can surface. -/
inductive PyError
  | valueError (msg : String)
  | runtimeError (msg : String)
deriving DecidableEq

/-- `os.path.splitext(file_path)[1].lower()`: the extension is the suffix
from the last dot of the basename, provided some earlier character of the
basename is not a dot. -/
def extOf (p : String) : String :=
  let cs := p.toList
  let start := match (cs.reverse).findIdx? (fun c => c == '/') with
    | some r => cs.length - r
    | none => 0
  let base := cs.drop start
  match (base.reverse).findIdx? (fun c => c == '.') with
  | none => ""
  | some r =>
    let d := base.length - 1 - r
    if (base.take d).any (fun c => c ≠ '.') then String.mk ((base.drop d).map Char.toLower)
    else ""

/-- The extensions `load_data` dispatches on. -/
def recognizedExt (ext : String) : Bool :=
  ext = ".csv" || ext = ".xlsx" || ext = ".xls" || ext = ".json" || ext = ".log" || ext = ".txt"

/-- `load_data`.  The actual file reads are abstracted by the `fileRead`
oracle (the record list the branch for a recognized extension would
produce, or the message of the exception the read raises); the embedding
keeps the whole `try/except` structure: the unsupported-extension
`ValueError` is raised *inside* the `try`, so every failure is re-raised
as `RuntimeError("Error loading file ...")`. -/
def load_data (file_path : String) (fileRead : Except String (List String)) :
    Except PyError (List String) :=
  let ext := extOf file_path
  let body : Except String (List String) :=
    if recognizedExt ext then fileRead
    else Except.error ("Unsupported file type: " ++ ext)
  match body with
  | .ok v => .ok v
  | .error e => .error (.runtimeError ("Error loading file " ++ file_path ++ ": " ++ e))

/-- The outcomes of `main` on the root rank. -/
inductive MainOutcome
  | err (e : PyError)
  | noData
  | result (r : AnalysisResult)
deriving DecidableEq

/-- `main` on the root rank: load, bail out on empty data, otherwise
partition / analyze / merge. -/
def mainModel (path : String) (fileRead : Except String (List String)) (w : Nat) : MainOutcome :=
  match load_data path fileRead with
  | .error e => .err e
  | .ok logs => if logs = [] then .noData else .result (pipeline w logs)

/-! ## Definitions following the spec's words (for refinement comparison) -/

/-- Modelled from the spec (§4.4 / claim C9): the content rule selects the
first column for which *the number of sampled values matching* the
IPv4-shaped pattern reaches the threshold (the code instead sums the
number of IP-shaped occurrences over the sample, so one value containing
several IPs counts several times). -/
def findSrcColClaim (T : Table) : String :=
  let colsL := T.cols.map pyLower
  match colsL.findIdx? srcNameHit with
  | some i => T.cols.getD i ""
  | none =>
    match T.cols.find? (fun c =>
        srcThreshold ((colVals T c).take 200) ≤
          ((colVals T c).take 200).countP (fun v => !(findallIP v.toList).isEmpty)) with
    | some c => c
    | none => T.cols.headD ""

/-- A record that keeps every partition free-form: nonempty, no comma, tab
or semicolon, no two adjacent whitespace characters, and no whitespace at
either end (so newline-joining any selection of such records creates no
`\s{2,}` run). -/
def cleanLine (s : String) : Bool :=
  let cs := s.toList
  !cs.isEmpty && cs.all (fun c => !(c = ',' || c = '\t' || c = ';')) &&
    !hasAdjWS cs && !pyWS (cs.headD 'a') && !pyWS (cs.getLastD 'a')

/-! ## Concrete example inputs used by scenarios and counterexamples -/

/-- The scenario-E table: a name-matched source column holding `5.5.5.5`
three times and `6.6.6.6` once, and benign labels throughout. -/
def tableE : Table :=
  ⟨["src_ip", "label"],
    [["5.5.5.5", "normal"], ["5.5.5.5", "normal"], ["5.5.5.5", "normal"],
      ["6.6.6.6", "normal"]]⟩

/-- Twenty rows and two columns with no name hit: column "a" holds two
IP-shaped substrings inside a single value (and nothing IP-shaped
elsewhere), so occurrence counting reaches the threshold 2 while
value counting does not. -/
def tableC9 : Table :=
  ⟨["b", "a"], ["q", "9.9.9.9 8.8.8.8"] :: List.replicate 19 ["q", "z"]⟩

/-- Twelve records, free-form for the first ten, with a comma and a second
IP hidden inside record index 10. -/
def logsC1 : List String :=
  ["alpha", "bravo", "charlie", "delta", "echo", "foxtrot", "golf", "hotel",
    "india", "juliet", "Failed password for root from 1.2.3.4, also 5.6.7.8", "kilo"]

/-- A partition that is classified tabular but fails to parse (a 3-field
row against a 2-field header), holding a Failed-password line with a
second IP. -/
def chunkC5 : List String :=
  ["h1,h2", "x,y,z", "Failed password for root from 1.2.3.4 said 5.6.7.8"]

end PLA

namespace PLA

/-! ## Lemmas about tallies -/

lemma tget_cons (k' : String) (v' : Nat) (t : Tally) (k : String) :
    tget ((k', v') :: t) k = if k' = k then v' else tget t k := by
  simp only [tget, List.find?]
  cases h : (k' == k)
  · have h' : k' ≠ k := by simpa using h
    simp [h']
  · have h' : k' = k := by simpa using h
    simp [h']

lemma tget_setval_self (t : Tally) (k : String) (v : Nat) : tget (setval t k v) k = v := by
  induction t with
  | nil => simp [setval, tget_cons]
  | cons p t ih =>
    obtain ⟨k', v'⟩ := p
    by_cases h : k' = k <;> simp [setval, h, tget_cons, ih]

lemma tget_setval_ne (t : Tally) (k v : _) (k' : String) (h : k' ≠ k) :
    tget (setval t k v) k' = tget t k' := by
  induction t with
  | nil => simp [setval, tget_cons, Ne.symm h]
  | cons p t ih =>
    obtain ⟨k0, v0⟩ := p
    by_cases h0 : k0 = k
    · subst h0
      simp [setval, tget_cons, Ne.symm h]
    · simp [setval, h0, tget_cons, ih]

lemma tget_incr (t : Tally) (a k : String) :
    tget (incr t a) k = tget t k + if a = k then 1 else 0 := by
  unfold incr
  by_cases h : a = k
  · subst h; simp [tget_setval_self]
  · simp [h, tget_setval_ne t a _ k (fun hh => h hh.symm)]

lemma tget_foldl_incr (k : String) : ∀ (l : List String) (t : Tally),
    tget (l.foldl incr t) k = tget t k + l.count k := by
  intro l
  induction l with
  | nil => simp
  | cons a l ih =>
    intro t
    simp only [List.foldl_cons, List.count_cons, ih, tget_incr, beq_iff_eq]
    by_cases h : a = k <;> simp [h] <;> omega

lemma setval_ne_nil (t : Tally) (k : String) (v : Nat) : setval t k v ≠ [] := by
  cases t with
  | nil => simp [setval]
  | cons p t => obtain ⟨k', v'⟩ := p; by_cases h : k' = k <;> simp [setval, h]

lemma mem_setval : ∀ {t : Tally} {k : String} {v : Nat} {p : String × Nat},
    p ∈ setval t k v → p = (k, v) ∨ p ∈ t := by
  intro t
  induction t with
  | nil => intro k v p hp; simp [setval] at hp; simp [hp]
  | cons q t ih =>
    intro k v p hp
    obtain ⟨k', v'⟩ := q
    by_cases h : k' = k
    · simp [setval, h] at hp
      rcases hp with hp | hp <;> simp [hp]
    · simp [setval, h] at hp
      rcases hp with hp | hp
      · simp [hp]
      · rcases ih hp with hh | hh <;> simp [hh]

/-- Python-dict invariant: keys are pairwise distinct. -/
def nodupKeys (t : Tally) : Prop := (t.map Prod.fst).Nodup

lemma hasKey_cons (k' : String) (v' : Nat) (t : Tally) (k : String) :
    hasKey ((k', v') :: t) k = ((k' == k) || hasKey t k) := by
  simp [hasKey]

lemma hasKey_false_not_mem {t : Tally} {k : String} (h : hasKey t k = false) :
    k ∉ t.map Prod.fst := by
  intro hk
  simp only [hasKey, List.any_eq_false] at h
  obtain ⟨p, hp, hpk⟩ := List.mem_map.mp hk
  exact h p hp (by simp [hpk])

lemma map_fst_setval_of_hasKey : ∀ {t : Tally} {k : String} (v : Nat),
    hasKey t k = true → (setval t k v).map Prod.fst = t.map Prod.fst := by
  intro t
  induction t with
  | nil => intro k v h; simp [hasKey] at h
  | cons q t ih =>
    intro k v h
    obtain ⟨k', v'⟩ := q
    by_cases hk : k' = k
    · simp [setval, hk]
    · rw [hasKey_cons] at h
      simp [hk] at h
      simp [setval, hk, ih v h]

lemma map_fst_setval_of_not_hasKey : ∀ {t : Tally} {k : String} (v : Nat),
    hasKey t k = false → (setval t k v).map Prod.fst = t.map Prod.fst ++ [k] := by
  intro t
  induction t with
  | nil => intro k v _; simp [setval]
  | cons q t ih =>
    intro k v h
    obtain ⟨k', v'⟩ := q
    rw [hasKey_cons] at h
    simp only [Bool.or_eq_false_iff] at h
    have hk : k' ≠ k := by simpa using h.1
    simp [setval, hk, ih v h.2]

lemma nodupKeys_setval {t : Tally} (k : String) (v : Nat) (h : nodupKeys t) :
    nodupKeys (setval t k v) := by
  unfold nodupKeys at *
  cases hk : hasKey t k
  · rw [map_fst_setval_of_not_hasKey v hk]
    have hnm := hasKey_false_not_mem hk
    simp only [List.nodup_append, List.nodup_cons, List.nodup_nil]
    refine ⟨h, ⟨by simp, trivial⟩, ?_⟩
    intro a ha hak
    have : a = k := by simpa using hak
    exact hnm (this ▸ ha)
  · rw [map_fst_setval_of_hasKey v hk]; exact h

lemma nodupKeys_incr {t : Tally} (k : String) (h : nodupKeys t) : nodupKeys (incr t k) :=
  nodupKeys_setval k _ h

lemma nodupKeys_foldl_incr : ∀ (l : List String) {t : Tally}, nodupKeys t →
    nodupKeys (l.foldl incr t) := by
  intro l
  induction l with
  | nil => intro t h; exact h
  | cons a l ih => intro t h; exact ih (nodupKeys_incr a h)

lemma keySum_cons (k' : String) (v' : Nat) (t : Tally) (k : String) :
    keySum ((k', v') :: t) k = (if k' = k then v' else 0) + keySum t k := by
  simp only [keySum, List.filter]
  cases h : (k' == k)
  · have h' : k' ≠ k := by simpa using h
    simp [h']
  · have h' : k' = k := by simpa using h
    simp [h']

lemma keySum_eq_zero_of_not_hasKey : ∀ {t : Tally} {k : String},
    hasKey t k = false → keySum t k = 0 := by
  intro t
  induction t with
  | nil => intro k _; simp [keySum]
  | cons q t ih =>
    intro k h
    obtain ⟨k', v'⟩ := q
    rw [hasKey_cons] at h
    simp only [Bool.or_eq_false_iff] at h
    have hk : k' ≠ k := by simpa using h.1
    simp [keySum_cons, hk, ih h.2]

lemma tget_eq_zero_of_not_hasKey : ∀ {t : Tally} {k : String},
    hasKey t k = false → tget t k = 0 := by
  intro t
  induction t with
  | nil => intro k _; rfl
  | cons q t ih =>
    intro k h
    obtain ⟨k', v'⟩ := q
    rw [hasKey_cons] at h
    simp only [Bool.or_eq_false_iff] at h
    have hk : k' ≠ k := by simpa using h.1
    simp [tget_cons, hk, ih h.2]

lemma keySum_eq_tget : ∀ {t : Tally}, nodupKeys t → ∀ k, keySum t k = tget t k := by
  intro t
  induction t with
  | nil => intro _ k; rfl
  | cons q t ih =>
    intro h k
    obtain ⟨k', v'⟩ := q
    unfold nodupKeys at h
    simp only [List.map_cons, List.nodup_cons] at h
    by_cases hk : k' = k
    · subst hk
      have : hasKey t k' = false := by
        cases hh : hasKey t k'
        · rfl
        · exfalso
          simp only [hasKey, List.any_eq_true] at hh
          obtain ⟨p, hp, hpk⟩ := hh
          exact h.1 (List.mem_map.mpr ⟨p, hp, by simpa using hpk.symm⟩)
      simp [keySum_cons, tget_cons, keySum_eq_zero_of_not_hasKey this]
    · simp [keySum_cons, tget_cons, hk, ih h.2 k]

end PLA

namespace PLA

/-! ## Lemmas about the aggregator -/

lemma tget_addTally (k : String) : ∀ (r acc : Tally),
    tget (addTally acc r) k = tget acc k + keySum r k := by
  intro r
  induction r with
  | nil => intro acc; simp [addTally, keySum]
  | cons p r ih =>
    intro acc
    obtain ⟨k', v'⟩ := p
    have step : addTally acc ((k', v') :: r) = addTally (setval acc k' (tget acc k' + v')) r := by
      simp [addTally]
    rw [step, ih, keySum_cons]
    by_cases h : k' = k
    · subst h; rw [tget_setval_self]; simp; omega
    · rw [tget_setval_ne _ _ _ _ (Ne.symm h)]; simp [h]

lemma tget_foldl_addTally (k : String) : ∀ (rs : List Tally) (acc : Tally),
    tget (rs.foldl addTally acc) k = tget acc k + (rs.map (fun r => keySum r k)).sum := by
  intro rs
  induction rs with
  | nil => intro acc; simp
  | cons r rs ih =>
    intro acc
    simp only [List.foldl_cons, List.map_cons, List.sum_cons, ih, tget_addTally]
    omega

lemma tget_mergeAll (rs : List Tally) (k : String) :
    tget (mergeAll rs) k = (rs.map (fun r => keySum r k)).sum := by
  simp [mergeAll, tget_foldl_addTally]
  rfl

lemma hasKey_setval (t : Tally) (k : String) (v : Nat) (k' : String) :
    hasKey (setval t k v) k' = ((k == k') || hasKey t k') := by
  induction t with
  | nil => simp [setval, hasKey]
  | cons p t ih =>
    obtain ⟨k0, v0⟩ := p
    by_cases h0 : k0 = k
    · subst h0; simp [setval, hasKey_cons]
    · simp only [setval, h0, if_neg, ite_false, hasKey_cons, ih]
      cases k0 == k' <;> cases k == k' <;> simp

lemma hasKey_addTally (k : String) : ∀ (r acc : Tally),
    hasKey (addTally acc r) k = (hasKey acc k || hasKey r k) := by
  intro r
  induction r with
  | nil => intro acc; simp [addTally, hasKey]
  | cons p r ih =>
    intro acc
    obtain ⟨k', v'⟩ := p
    have step : addTally acc ((k', v') :: r) = addTally (setval acc k' (tget acc k' + v')) r := by
      simp [addTally]
    rw [step, ih, hasKey_setval, hasKey_cons]
    cases k' == k <;> cases hasKey acc k <;> cases hasKey r k <;> simp

lemma hasKey_foldl_addTally (k : String) : ∀ (rs : List Tally) (acc : Tally),
    hasKey (rs.foldl addTally acc) k = (hasKey acc k || rs.any (fun r => hasKey r k)) := by
  intro rs
  induction rs with
  | nil => intro acc; simp
  | cons r rs ih =>
    intro acc
    simp only [List.foldl_cons, List.any_cons, ih, hasKey_addTally]
    cases hasKey acc k <;> cases hasKey r k <;> simp

lemma hasKey_mergeAll (rs : List Tally) (k : String) :
    hasKey (mergeAll rs) k = rs.any (fun r => hasKey r k) := by
  have := hasKey_foldl_addTally k rs []
  simpa [mergeAll, hasKey] using this

lemma foldl_setvalStep_ne_nil :
    ∀ (r : List (String × Nat)) (acc : Tally), acc ≠ [] →
      r.foldl (fun a p => setval a p.1 (tget a p.1 + p.2)) acc ≠ [] := by
  intro r
  induction r with
  | nil => intro acc h; simpa using h
  | cons p r ih =>
    intro acc _
    simp only [List.foldl_cons]
    exact ih _ (setval_ne_nil _ _ _)

lemma addTally_eq_nil_iff (acc r : Tally) : addTally acc r = [] ↔ acc = [] ∧ r = [] := by
  cases r with
  | nil => simp [addTally]
  | cons p r =>
    simp only [addTally, List.foldl_cons]
    constructor
    · intro h
      exact absurd h (foldl_setvalStep_ne_nil r _ (setval_ne_nil _ _ _))
    · rintro ⟨_, h⟩
      exact absurd h (by simp)

lemma foldl_addTally_eq_nil_iff : ∀ (rs : List Tally) (acc : Tally),
    rs.foldl addTally acc = [] ↔ acc = [] ∧ ∀ r ∈ rs, r = [] := by
  intro rs
  induction rs with
  | nil => intro acc; simp
  | cons r rs ih =>
    intro acc
    simp only [List.foldl_cons, ih, addTally_eq_nil_iff, List.mem_cons]
    constructor
    · rintro ⟨⟨h1, h2⟩, h3⟩
      exact ⟨h1, by rintro r' (rfl | hr') <;> [exact h2; exact h3 r' hr']⟩
    · rintro ⟨h1, h2⟩
      exact ⟨⟨h1, h2 r (Or.inl rfl)⟩, fun r' hr' => h2 r' (Or.inr hr')⟩

lemma mergeAll_eq_nil_iff (rs : List Tally) : mergeAll rs = [] ↔ ∀ r ∈ rs, r = [] := by
  simp [mergeAll, foldl_addTally_eq_nil_iff]

/-! ## Positivity of counts -/

/-- Every count bound by the tally is strictly positive. -/
def posTally (t : Tally) : Prop := ∀ p ∈ t, 0 < p.2

lemma posTally_nil : posTally [] := by intro p hp; simp at hp

lemma posTally_setval {t : Tally} (h : posTally t) {k : String} {v : Nat} (hv : 0 < v) :
    posTally (setval t k v) := by
  intro p hp
  rcases mem_setval hp with rfl | hp
  · exact hv
  · exact h p hp

lemma posTally_incr {t : Tally} (h : posTally t) (k : String) : posTally (incr t k) :=
  posTally_setval h (Nat.succ_pos _)

lemma posTally_foldl_incr : ∀ (l : List String) {t : Tally}, posTally t →
    posTally (l.foldl incr t) := by
  intro l
  induction l with
  | nil => intro t h; exact h
  | cons a l ih => intro t h; exact ih (posTally_incr h a)

lemma posTally_addTally : ∀ {r acc : Tally}, posTally acc → posTally r →
    posTally (addTally acc r) := by
  intro r
  induction r with
  | nil => intro acc h _; exact h
  | cons p r ih =>
    intro acc hacc hr
    obtain ⟨k', v'⟩ := p
    have step : addTally acc ((k', v') :: r) = addTally (setval acc k' (tget acc k' + v')) r := by
      simp [addTally]
    rw [step]
    have hv' : 0 < v' := hr (k', v') (by simp)
    exact ih (posTally_setval hacc (by omega)) (fun q hq => hr q (by simp [hq]))

lemma posTally_mergeAll : ∀ {rs : List Tally}, (∀ r ∈ rs, posTally r) →
    posTally (mergeAll rs) := by
  have gen : ∀ (rs : List Tally) (acc : Tally), posTally acc → (∀ r ∈ rs, posTally r) →
      posTally (rs.foldl addTally acc) := by
    intro rs
    induction rs with
    | nil => intro acc h _; exact h
    | cons r rs ih =>
      intro acc hacc hrs
      simp only [List.foldl_cons]
      exact ih _ (posTally_addTally hacc (hrs r (by simp))) (fun r' hr' => hrs r' (by simp [hr']))
  intro rs h
  exact gen rs [] posTally_nil h

lemma posTally_eq_nil {t : Tally} (h : posTally t) : t = [] ↔ ∀ k, tget t k = 0 := by
  constructor
  · rintro rfl k; rfl
  · intro hk
    cases t with
    | nil => rfl
    | cons p t =>
      obtain ⟨k0, v0⟩ := p
      have h0 : 0 < v0 := h (k0, v0) (by simp)
      have := hk k0
      rw [tget_cons] at this
      simp at this
      omega

end PLA

namespace PLA

/-! ## Lemmas about the free-form detector and the except-fallback -/

lemma lineStep_tget (t : Tally) (line : String) (k : String) :
    tget (lineStep t line) k = tget t k + (lineIPs line).count k := by
  unfold lineStep lineIPs
  cases h : searchFailed line.toList with
  | some ip => simp [tget_incr, List.count_singleton, beq_iff_eq]
  | none => simp [tget_foldl_incr]

lemma foldl_lineStep_tget (k : String) : ∀ (c : List String) (t : Tally),
    tget (c.foldl lineStep t) k = tget t k + (c.map (fun line => (lineIPs line).count k)).sum := by
  intro c
  induction c with
  | nil => intro t; simp
  | cons line c ih =>
    intro t
    simp only [List.foldl_cons, List.map_cons, List.sum_cons, ih, lineStep_tget]
    omega

lemma tget_freeformTally (c : List String) (k : String) :
    tget (freeformTally c) k = (c.map (fun line => (lineIPs line).count k)).sum := by
  have := foldl_lineStep_tget k c []
  simpa [freeformTally, tget] using this

lemma foldl_fallbackStep_tget (k : String) : ∀ (c : List String) (t : Tally),
    tget (c.foldl (fun t line => (findallIP line.toList).foldl incr t) t) k =
      tget t k + (c.map (fun line => (findallIP line.toList).count k)).sum := by
  intro c
  induction c with
  | nil => intro t; simp
  | cons line c ih =>
    intro t
    simp only [List.foldl_cons, List.map_cons, List.sum_cons, ih, tget_foldl_incr]
    omega

lemma tget_fallbackTally (c : List String) (k : String) :
    tget (fallbackTally c) k = (c.map (fun line => (findallIP line.toList).count k)).sum := by
  have := foldl_fallbackStep_tget k c []
  simpa [fallbackTally, tget] using this

lemma nodupKeys_lineStep {t : Tally} (h : nodupKeys t) (line : String) :
    nodupKeys (lineStep t line) := by
  unfold lineStep
  cases searchFailed line.toList with
  | some ip => exact nodupKeys_incr _ h
  | none => exact nodupKeys_foldl_incr _ h

lemma nodupKeys_freeformTally (c : List String) : nodupKeys (freeformTally c) := by
  have gen : ∀ (c : List String) (t : Tally), nodupKeys t → nodupKeys (c.foldl lineStep t) := by
    intro c
    induction c with
    | nil => intro t h; exact h
    | cons line c ih => intro t h; exact ih _ (nodupKeys_lineStep h line)
  exact gen c [] (by simp [nodupKeys])

lemma posTally_lineStep {t : Tally} (h : posTally t) (line : String) :
    posTally (lineStep t line) := by
  unfold lineStep
  cases searchFailed line.toList with
  | some ip => exact posTally_incr h ip
  | none => exact posTally_foldl_incr _ h

lemma posTally_freeformTally (c : List String) : posTally (freeformTally c) := by
  have gen : ∀ (c : List String) (t : Tally), posTally t → posTally (c.foldl lineStep t) := by
    intro c
    induction c with
    | nil => intro t h; exact h
    | cons line c ih => intro t h; exact ih _ (posTally_lineStep h line)
  exact gen c [] posTally_nil

lemma posTally_fallbackTally (c : List String) : posTally (fallbackTally c) := by
  have gen : ∀ (c : List String) (t : Tally), posTally t →
      posTally (c.foldl (fun t line => (findallIP line.toList).foldl incr t) t) := by
    intro c
    induction c with
    | nil => intro t h; exact h
    | cons line c ih => intro t h; exact ih _ (posTally_foldl_incr _ h)
  exact gen c [] posTally_nil

/-! ## Lemmas about the partitioner -/

lemma sliceStepF_congr {α : Type} (w : Nat) : ∀ (f f' : Nat) (l : List α),
    l.length ≤ f → l.length ≤ f' → sliceStepF f w l = sliceStepF f' w l := by
  intro f
  induction f with
  | zero =>
    intro f' l hf _
    have : l = [] := List.length_eq_zero.mp (Nat.le_zero.mp hf)
    subst this
    cases f' <;> rfl
  | succ f ih =>
    intro f' l hf hf'
    cases l with
    | nil => cases f' <;> rfl
    | cons x xs =>
      cases f' with
      | zero => simp at hf'
      | succ f'' =>
        simp only [sliceStepF, List.cons.injEq, true_and]
        apply ih
        · have h1 : xs.length ≤ f := by simpa using hf
          have := List.length_drop (w - 1) xs
          omega
        · have h1 : xs.length ≤ f'' := by simpa using hf'
          have := List.length_drop (w - 1) xs
          omega

lemma sliceStepF_getElem {α : Type} (w : Nat) (hw : 0 < w) : ∀ (f : Nat) (l : List α) (n : Nat),
    l.length ≤ f → (sliceStepF f w l)[n]? = l[n * w]? := by
  intro f
  induction f with
  | zero =>
    intro l n hf
    have : l = [] := List.length_eq_zero.mp (Nat.le_zero.mp hf)
    subst this
    simp [sliceStepF]
  | succ f ih =>
    intro l n hf
    cases l with
    | nil => simp [sliceStepF]
    | cons x xs =>
      cases n with
      | zero => simp [sliceStepF]
      | succ m =>
        have hlen : (xs.drop (w - 1)).length ≤ f := by
          have h1 : xs.length ≤ f := by simpa using hf
          have := List.length_drop (w - 1) xs
          omega
        have hidx : (m + 1) * w = (w - 1) + m * w + 1 := by
          rw [Nat.add_mul, Nat.one_mul]
          omega
        simp only [sliceStepF, List.getElem?_cons_succ, ih _ m hlen, List.getElem?_drop, hidx]

lemma pychunk_getElem {α : Type} (w i : Nat) (hw : 0 < w) (l : List α) (n : Nat) :
    (pychunk w i l)[n]? = l[i + n * w]? := by
  unfold pychunk
  rw [sliceStepF_getElem w hw _ _ n le_rfl, List.getElem?_drop]

lemma mem_sliceStepF {α : Type} (w : Nat) : ∀ (f : Nat) (l : List α) (a : α),
    a ∈ sliceStepF f w l → a ∈ l := by
  intro f
  induction f with
  | zero => intro l a h; simp [sliceStepF] at h
  | succ f ih =>
    intro l a h
    cases l with
    | nil => simp [sliceStepF] at h
    | cons x xs =>
      simp only [sliceStepF, List.mem_cons] at h
      rcases h with rfl | h
      · simp
      · exact List.mem_cons_of_mem _ (List.drop_subset _ _ (ih _ a h))

lemma mem_pychunk {α : Type} {w i : Nat} {l : List α} {a : α} (h : a ∈ pychunk w i l) :
    a ∈ l :=
  List.drop_subset i l (mem_sliceStepF w _ _ a h)

lemma pychunk_nil {α : Type} (w i : Nat) : pychunk w i ([] : List α) = [] := by
  unfold pychunk
  simp [List.drop_nil, sliceStepF]

lemma pychunk_zero_cons {α : Type} {w : Nat} (hw : 0 < w) (a : α) (l : List α) :
    pychunk w 0 (a :: l) = a :: pychunk w (w - 1) l := by
  unfold pychunk
  simp only [List.drop_zero, List.length_cons, sliceStepF, List.cons.injEq, true_and]
  apply sliceStepF_congr
  · have := List.length_drop (w - 1) l
    omega
  · exact le_rfl

lemma pychunk_succ_cons {α : Type} (w i : Nat) (a : α) (l : List α) :
    pychunk w (i + 1) (a :: l) = pychunk w i l := by
  unfold pychunk
  rw [List.drop_succ_cons]

lemma sum_over_chunks {α : Type} (g : α → Nat) (w : Nat) (hw : 0 < w) : ∀ (l : List α),
    ((List.range w).map (fun i => ((pychunk w i l).map g).sum)).sum = (l.map g).sum := by
  intro l
  induction l with
  | nil => simp [pychunk_nil]
  | cons a l ih =>
    obtain ⟨w', rfl⟩ : ∃ w', w = w' + 1 := ⟨w - 1, by omega⟩
    rw [List.range_succ_eq_map, List.map_cons, List.sum_cons, List.map_map]
    have hsucc : ((List.range w').map ((fun i => ((pychunk (w' + 1) i (a :: l)).map g).sum) ∘ Nat.succ))
        = (List.range w').map (fun i => ((pychunk (w' + 1) i l).map g).sum) := by
      apply List.map_congr_left
      intro i _
      simp [Function.comp, pychunk_succ_cons]
    rw [hsucc, pychunk_zero_cons hw a l]
    have hr := ih
    rw [List.range_succ, List.map_append, List.sum_append] at hr
    simp only [List.map_cons, List.sum_cons, List.map_nil, List.sum_nil, add_zero] at hr ⊢
    have : w' + 1 - 1 = w' := by omega
    rw [this]
    omega

lemma count_eq_sum_map (x : String) (l : List String) :
    l.count x = (l.map (fun a => if a = x then 1 else 0)).sum := by
  induction l with
  | nil => rfl
  | cons a l ih =>
    simp only [List.count_cons, List.map_cons, List.sum_cons, ih, beq_iff_eq]
    by_cases h : a = x <;> simp [h] <;> omega

lemma count_over_chunks (x : String) (w : Nat) (hw : 0 < w) (l : List String) :
    ((List.range w).map (fun i => (pychunk w i l).count x)).sum = l.count x := by
  have h := sum_over_chunks (fun a => if a = x then 1 else 0) w hw l
  rw [count_eq_sum_map]
  rw [← h]
  congr 1
  apply List.map_congr_left
  intro i _
  rw [count_eq_sum_map]

end PLA

namespace PLA

/-! ## Clean records keep every partition free-form -/

lemma hasAdjWS_cons_cons (a b : Char) (l : List Char) :
    hasAdjWS (a :: b :: l) = ((pyWS a && pyWS b) || hasAdjWS (b :: l)) := rfl

lemma hasAdjWS_append_false {m : List Char} : ∀ {l : List Char},
    hasAdjWS l = false → hasAdjWS m = false →
    (∀ a b, l.getLast? = some a → m.head? = some b → (pyWS a && pyWS b) = false) →
    hasAdjWS (l ++ m) = false := by
  intro l
  induction l with
  | nil => intro _ hm _; simpa using hm
  | cons x l0 ih =>
    intro hl hm hb
    cases l0 with
    | nil =>
      cases m with
      | nil => rfl
      | cons b m' =>
        have hxb : (pyWS x && pyWS b) = false := hb x b (by simp) (by simp)
        simpa [hasAdjWS_cons_cons, hxb] using hm
    | cons y l' =>
      rw [hasAdjWS_cons_cons] at hl
      simp only [Bool.or_eq_false_iff] at hl
      have hstep : ((x :: y :: l') ++ m) = x :: ((y :: l') ++ m) := by simp
      rw [hstep]
      have htail : hasAdjWS ((y :: l') ++ m) = false := by
        apply ih hl.2 hm
        intro a b ha hbm
        exact hb a b (by rw [List.getLast?_cons_cons]; exact ha) hbm
      cases hmm : ((y :: l') ++ m) with
      | nil => rfl
      | cons z zs =>
        have hz : z = y := by
          have : ((y :: l') ++ m).head? = some y := by simp
          rw [hmm] at this
          simpa using this
        subst hz
        rw [hasAdjWS_cons_cons]
        rw [hmm] at htail
        simp [hl.1, htail]

lemma mem_joinNL : ∀ (chunk : List String) (c : Char),
    c ∈ joinNL chunk → c = '\n' ∨ ∃ s ∈ chunk, c ∈ s.toList := by
  intro chunk
  induction chunk with
  | nil => intro c hc; simp [joinNL] at hc
  | cons s rest ih =>
    intro c hc
    cases rest with
    | nil =>
      simp only [joinNL] at hc
      exact Or.inr ⟨s, by simp, hc⟩
    | cons s' rest' =>
      simp only [joinNL, List.mem_append, List.mem_cons] at hc
      rcases hc with hc | hc | hc
      · exact Or.inr ⟨s, by simp, hc⟩
      · exact Or.inl hc
      · rcases ih c hc with h | ⟨u, hu, hcu⟩
        · exact Or.inl h
        · exact Or.inr ⟨u, by simp [hu], hcu⟩

lemma head?_joinNL (s : String) (rest : List String) (hs : s.toList ≠ []) :
    (joinNL (s :: rest)).head? = s.toList.head? := by
  cases rest with
  | nil => rfl
  | cons s' rest' =>
    simp only [joinNL, List.head?_append]
    cases h : s.toList with
    | nil => exact absurd h hs
    | cons a l => simp

lemma cleanLine_parts {s : String} (h : cleanLine s = true) :
    s.toList ≠ [] ∧ (∀ c ∈ s.toList, ¬(c = ',' ∨ c = '\t' ∨ c = ';')) ∧
      hasAdjWS s.toList = false ∧
      pyWS (s.toList.headD 'a') = false ∧ pyWS (s.toList.getLastD 'a') = false := by
  unfold cleanLine at h
  simp only [Bool.and_eq_true, Bool.not_eq_true', List.all_eq_true] at h
  obtain ⟨⟨⟨⟨h1, h2⟩, h3⟩, h4⟩, h5⟩ := h
  refine ⟨by simpa using h1, ?_, h3, h4, h5⟩
  intro c hc
  have := h2 c hc
  simp only [Bool.or_eq_false_iff] at this
  rintro (rfl | rfl | rfl)
  · simpa using this.1.1
  · simpa using this.1.2
  · simpa using this.2

lemma joinNL_clean_noAdj : ∀ (chunk : List String),
    (∀ s ∈ chunk, cleanLine s = true) → hasAdjWS (joinNL chunk) = false := by
  intro chunk
  induction chunk with
  | nil => intro _; rfl
  | cons s rest ih =>
    intro h
    obtain ⟨hne, _, hadj, hhead, hlast⟩ := cleanLine_parts (h s (by simp))
    cases rest with
    | nil => simpa [joinNL] using hadj
    | cons s' rest' =>
      show hasAdjWS (s.toList ++ '\n' :: joinNL (s' :: rest')) = false
      apply hasAdjWS_append_false hadj
      · -- the newline is followed by the non-whitespace first char of s'
        obtain ⟨hne', _, _, hhead', _⟩ := cleanLine_parts (h s' (by simp))
        have hrest := ih (fun u hu => h u (by simp [hu]))
        cases hj : joinNL (s' :: rest') with
        | nil => rfl
        | cons b m' =>
          have hbws : pyWS b = false := by
            have h1 : (joinNL (s' :: rest')).head? = s'.toList.head? := head?_joinNL s' rest' hne'
            rw [hj] at h1
            cases h2 : s'.toList with
            | nil => exact absurd h2 hne'
            | cons a l =>
              rw [h2] at h1
              have h1' : some b = some a := by simpa using h1
              have hba : b = a := Option.some.inj h1'
              have hws : pyWS a = false := by
                have h3 := hhead'
                rw [h2] at h3
                simpa using h3
              rw [hba]
              exact hws
          rw [hasAdjWS_cons_cons]
          rw [hj] at hrest
          simp [hbws, hrest]
      · intro a b ha hbm
        have hb : '\n' = b := by simpa using hbm
        have hane : s.toList.getLast? = some (s.toList.getLastD 'a') := by
          rw [List.getLastD_eq_getLast?]
          cases hg : s.toList.getLast? with
          | none => exact absurd (List.getLast?_eq_none_iff.mp hg) hne
          | some x => rfl
        have haa : s.toList.getLastD 'a' = a := by
          rw [hane] at ha
          simpa using ha
        rw [← haa, hlast]
        simp

lemma isTabularSample_joinNL_false (chunk : List String)
    (h : ∀ s ∈ chunk, cleanLine s = true) : isTabularSample (joinNL chunk) = false := by
  have hmem : ∀ ch : Char, (ch = ',' ∨ ch = '\t' ∨ ch = ';') → ch ∉ joinNL chunk := by
    intro ch hch hin
    rcases mem_joinNL chunk ch hin with h0 | ⟨s, hs, hcs⟩
    · rcases hch with rfl | rfl | rfl <;> simp at h0
    · exact (cleanLine_parts (h s hs)).2.1 ch hcs hch
  unfold isTabularSample
  simp [hmem ',' (by simp), hmem '\t' (by simp), hmem ';' (by simp),
    joinNL_clean_noAdj chunk h]

lemma analyzeLogs_clean {chunk : List String} (h : ∀ s ∈ chunk, cleanLine s = true) :
    analyzeLogs chunk = freeformTally chunk := by
  unfold analyzeLogs
  have : isTabularSample (sampleOf chunk) = false := by
    apply isTabularSample_joinNL_false
    intro s hs
    exact h s (List.take_subset 10 chunk hs)
  simp [this]

end PLA

namespace PLA

/-! ## Positivity through the tabular branch -/

lemma posTally_rowStep (cols : List String) (src : String) (atk : Option String)
    {t : Tally} (h : posTally t) (row : List String) :
    posTally (rowStep cols src atk t row) := by
  unfold rowStep
  repeat' first
    | split
    | (dsimp only)
  all_goals first
    | exact h
    | exact posTally_incr h _

lemma posTally_rowScan (T : Table) : posTally (rowScan T) := by
  unfold rowScan
  have gen : ∀ (rows : List (List String)) (t : Tally), posTally t →
      posTally (rows.foldl (rowStep T.cols (find_src_col T) (find_attack_col T)) t) := by
    intro rows
    induction rows with
    | nil => intro t h; exact h
    | cons r rows ih => intro t h; exact ih _ (posTally_rowStep _ _ _ h r)
  exact gen _ [] posTally_nil

lemma posTally_freqTally (vals : List String) : posTally (freqTally vals) := by
  unfold freqTally
  have gen : ∀ (ds : List String) (t : Tally), posTally t →
      posTally (ds.foldl
        (fun t v => if ipAtStart v = true ∧ 1 < vals.count v then setval t v (vals.count v) else t) t) := by
    intro ds
    induction ds with
    | nil => intro t h; exact h
    | cons v ds ih =>
      intro t h
      simp only [List.foldl_cons]
      apply ih
      split
      · rename_i hc
        exact posTally_setval h (by omega)
      · exact h
  exact gen _ [] posTally_nil

lemma posTally_analyzeTabular (T : Table) : posTally (analyzeTabular T) := by
  unfold analyzeTabular
  simp only []
  split
  · exact posTally_freqTally _
  · exact posTally_rowScan T

lemma posTally_analyzeLogs (chunk : List String) : posTally (analyzeLogs chunk) := by
  unfold analyzeLogs
  split
  · cases hp : parseTable (sniffDelim (sampleOf chunk)) chunk with
    | some df => exact posTally_analyzeTabular df
    | none => exact posTally_fallbackTally chunk
  · exact posTally_freeformTally chunk

/-! ## Claims -/

/-- Claim C2: the partitioner `logs[i::W]` places the record at 0-based
index `j` into partition `j % W` at offset `j / W`; partition `i` holds
exactly the records at indices `i + n*W` (so distinct partitions draw from
disjoint index sets), and summed over all partitions the count of every
record value equals its count in the whole list (the partitions' union,
order ignored, is the full record sequence).  The partitioner is a pure
function of the load order and `W`, hence deterministic. -/
theorem claim_C2 (w : Nat) (hw : 0 < w) (l : List String) :
    (∀ i n, (pychunk w i l)[n]? = l[i + n * w]?) ∧
    (∀ j, j < l.length → (pychunk w (j % w) l)[j / w]? = l[j]?) ∧
    (∀ x : String, ((List.range w).map (fun i => (pychunk w i l).count x)).sum = l.count x) ∧
    (∀ i i' n n', i < w → i' < w → i ≠ i' → i + n * w ≠ i' + n' * w) := by
  refine ⟨fun i n => pychunk_getElem w i hw l n, ?_, fun x => count_over_chunks x w hw l, ?_⟩
  · intro j _
    have h := pychunk_getElem w (j % w) hw l (j / w)
    rwa [Nat.mod_add_div' j w] at h
  · intro i i' n n' hi hi' hne heq
    apply hne
    have h1 : (i + n * w) % w = i := by
      rw [Nat.add_mul_mod_self_right, Nat.mod_eq_of_lt hi]
    have h2 : (i' + n' * w) % w = i' := by
      rw [Nat.add_mul_mod_self_right, Nat.mod_eq_of_lt hi']
    rw [← h1, ← h2, heq]

theorem claim_C2_witness :
    (pychunk 2 1 ["a", "b", "c"])[0]? = ["a", "b", "c"][1 + 0 * 2]? :=
  (claim_C2 2 (by decide) ["a", "b", "c"]).1 1 0

/-- Claim C3: the aggregator of `main` binds every key present in any
per-worker tally, to the sum of that key's counts over all the tallies that
contain it; it returns the sentinel exactly when the merged mapping is
empty; and merging is order-independent: any permutation of the tallies
yields the same content and the same sentinel-ness. -/
theorem claim_C3 (rs : List Tally) (hnd : ∀ r ∈ rs, nodupKeys r) :
    (∀ k, tget (mergeAll rs) k = (rs.map (fun r => tget r k)).sum) ∧
    (∀ k, hasKey (mergeAll rs) k = rs.any (fun r => hasKey r k)) ∧
    (finalize (mergeAll rs) = .sentinel ↔ mergeAll rs = []) ∧
    (∀ rs', rs.Perm rs' →
      (∀ k, tget (mergeAll rs') k = tget (mergeAll rs) k) ∧
      (finalize (mergeAll rs') = .sentinel ↔ finalize (mergeAll rs) = .sentinel)) := by
  have hsum : ∀ (qs : List Tally), (∀ r ∈ qs, nodupKeys r) → ∀ k,
      tget (mergeAll qs) k = (qs.map (fun r => tget r k)).sum := by
    intro qs hq k
    rw [tget_mergeAll]
    congr 1
    exact List.map_congr_left (fun r hr => keySum_eq_tget (hq r hr) k)
  refine ⟨hsum rs hnd, fun k => hasKey_mergeAll rs k, ?_, ?_⟩
  · by_cases h : mergeAll rs = [] <;> simp [finalize, h]
  · intro rs' hp
    have hnd' : ∀ r ∈ rs', nodupKeys r := fun r hr => hnd r (hp.mem_iff.mpr hr)
    constructor
    · intro k
      rw [hsum rs hnd k, hsum rs' hnd' k]
      exact List.Perm.sum_eq (List.Perm.map _ hp.symm)
    · have e1 : finalize (mergeAll rs') = .sentinel ↔ mergeAll rs' = [] := by
        by_cases h : mergeAll rs' = [] <;> simp [finalize, h]
      have e2 : finalize (mergeAll rs) = .sentinel ↔ mergeAll rs = [] := by
        by_cases h : mergeAll rs = [] <;> simp [finalize, h]
      rw [e1, e2, mergeAll_eq_nil_iff, mergeAll_eq_nil_iff]
      constructor
      · intro hh r hr
        exact hh r (hp.mem_iff.mp hr)
      · intro hh r hr
        exact hh r (hp.mem_iff.mpr hr)

theorem claim_C3_witness :
    tget (mergeAll [[("a", 2)], [("a", 3), ("b", 1)]]) "a" =
      ([[("a", 2)], [("a", 3), ("b", 1)]].map (fun r => tget r "a")).sum :=
  (claim_C3 [[("a", 2)], [("a", 3), ("b", 1)]] (by
    intro r hr
    simp only [List.mem_cons, List.not_mem_nil, or_false] at hr
    rcases hr with rfl | rfl <;> (unfold nodupKeys; decide))).1 "a"

/-- Claim C10: the detector returns a tally whose counts are all strictly
positive (the empty partition yields the empty tally); merging preserves
positivity; hence a non-sentinel pipeline result never binds an IP to a
zero (or, in these natural numbers, negative) count. -/
theorem claim_C10 :
    (∀ chunk, posTally (analyzeLogs chunk)) ∧
    (analyzeLogs [] = []) ∧
    (∀ rs, (∀ r ∈ rs, posTally r) → posTally (mergeAll rs)) ∧
    (∀ w logs t, pipeline w logs = .tally t → ∀ p ∈ t, 0 < p.2) := by
  refine ⟨posTally_analyzeLogs, rfl, fun rs h => posTally_mergeAll h, ?_⟩
  intro w logs t hpt
  unfold pipeline finalize at hpt
  split at hpt
  · exact absurd hpt (by simp)
  · have hmerged : posTally (mergeAll ((List.range w).map (fun i => analyzeLogs (pychunk w i logs)))) := by
      apply posTally_mergeAll
      intro r hr
      obtain ⟨i, _, rfl⟩ := List.mem_map.mp hr
      exact posTally_analyzeLogs _
    injection hpt with hh
    exact hh ▸ hmerged

theorem claim_C10_witness : (0 : Nat) < 1 :=
  claim_C10.2.2.2 1 ["seen 1.1.1.1"] [("1.1.1.1", 1)] (by decide) ("1.1.1.1", 1) (by decide)

end PLA

namespace PLA

/-- Claim C1 is false on the code: the twelve-record input below is
free-form for `W = 1` (no delimiter among the first ten records), but for
`W = 2` partition 0 contains the comma-bearing record among its first ten,
is classified tabular, fails to parse (3 fields against a 1-field header)
and falls back to plain IP extraction, which also counts `5.6.7.8`; the
free-form run counts only the captured `1.2.3.4`.  The two runs therefore
disagree in content. -/
theorem claim_C1_counterexample :
    ¬ sameContent
      (pipeline 1 ["alpha", "bravo", "charlie", "delta", "echo", "foxtrot", "golf", "hotel",
        "india", "juliet", "Failed password for root from 1.2.3.4, also 5.6.7.8", "kilo"])
      (pipeline 2 ["alpha", "bravo", "charlie", "delta", "echo", "foxtrot", "golf", "hotel",
        "india", "juliet", "Failed password for root from 1.2.3.4, also 5.6.7.8", "kilo"]) := by
  intro h
  rw [show pipeline 1 ["alpha", "bravo", "charlie", "delta", "echo", "foxtrot", "golf", "hotel",
        "india", "juliet", "Failed password for root from 1.2.3.4, also 5.6.7.8", "kilo"]
      = .tally [("1.2.3.4", 1)] from by decide,
    show pipeline 2 ["alpha", "bravo", "charlie", "delta", "echo", "foxtrot", "golf", "hotel",
        "india", "juliet", "Failed password for root from 1.2.3.4, also 5.6.7.8", "kilo"]
      = .tally [("1.2.3.4", 1), ("5.6.7.8", 1)] from by decide] at h
  have hk : ∀ k, tget [("1.2.3.4", 1)] k = tget [("1.2.3.4", 1), ("5.6.7.8", 1)] k := h
  exact absurd (hk "5.6.7.8") (by decide)

/-- Claim C1 (amended): when every record is a nonempty line with no comma,
tab or semicolon, no two adjacent whitespace characters, and no whitespace
at either end — so that every partition is classified free-form — any two
worker counts produce AnalysisResults of identical content (same
IP-to-count mapping, or the sentinel in both runs). -/
theorem claim_C1_amended (w1 w2 : Nat) (logs : List String)
    (h1 : 0 < w1) (h2 : 0 < w2) (hc : ∀ s ∈ logs, cleanLine s = true) :
    sameContent (pipeline w1 logs) (pipeline w2 logs) := by
  have key : ∀ w, 0 < w → ∀ k,
      tget (mergeAll ((List.range w).map (fun i => analyzeLogs (pychunk w i logs)))) k =
        (logs.map (fun line => (lineIPs line).count k)).sum := by
    intro w hw k
    rw [tget_mergeAll, List.map_map]
    have hcl : ∀ i ∈ List.range w,
        ((fun r => keySum r k) ∘ fun i => analyzeLogs (pychunk w i logs)) i =
          ((pychunk w i logs).map (fun line => (lineIPs line).count k)).sum := by
      intro i _
      have hchunk : ∀ s ∈ pychunk w i logs, cleanLine s = true :=
        fun s hs => hc s (mem_pychunk hs)
      simp only [Function.comp]
      rw [analyzeLogs_clean hchunk, keySum_eq_tget (nodupKeys_freeformTally _) k,
        tget_freeformTally]
    rw [List.map_congr_left hcl]
    exact sum_over_chunks _ w hw logs
  have p1 : posTally (mergeAll ((List.range w1).map (fun i => analyzeLogs (pychunk w1 i logs)))) := by
    apply posTally_mergeAll
    intro r hr
    obtain ⟨i, _, rfl⟩ := List.mem_map.mp hr
    exact posTally_analyzeLogs _
  have p2 : posTally (mergeAll ((List.range w2).map (fun i => analyzeLogs (pychunk w2 i logs)))) := by
    apply posTally_mergeAll
    intro r hr
    obtain ⟨i, _, rfl⟩ := List.mem_map.mp hr
    exact posTally_analyzeLogs _
  have hk : ∀ k,
      tget (mergeAll ((List.range w1).map (fun i => analyzeLogs (pychunk w1 i logs)))) k =
      tget (mergeAll ((List.range w2).map (fun i => analyzeLogs (pychunk w2 i logs)))) k := by
    intro k
    rw [key w1 h1 k, key w2 h2 k]
  unfold pipeline finalize
  by_cases hnil : mergeAll ((List.range w1).map (fun i => analyzeLogs (pychunk w1 i logs))) = []
  · have hnil2 : mergeAll ((List.range w2).map (fun i => analyzeLogs (pychunk w2 i logs))) = [] := by
      refine (posTally_eq_nil p2).mpr (fun k => ?_)
      rw [← hk k, hnil]
      rfl
    rw [if_pos hnil, if_pos hnil2]
    trivial
  · have hnil2 : mergeAll ((List.range w2).map (fun i => analyzeLogs (pychunk w2 i logs))) ≠ [] := by
      intro h0
      apply hnil
      refine (posTally_eq_nil p1).mpr (fun k => ?_)
      rw [hk k, h0]
      rfl
    rw [if_neg hnil, if_neg hnil2]
    exact hk

theorem claim_C1_witness :
    sameContent (pipeline 1 ["one", "two", "three 9.9.9.9"])
      (pipeline 2 ["one", "two", "three 9.9.9.9"]) :=
  claim_C1_amended 1 2 ["one", "two", "three 9.9.9.9"] (by decide) (by decide) (by decide)

end PLA

namespace PLA

/-- Claim C7: in the free-form detector, a record matching the
"Failed password for … from <IP>" pattern increments the tally exactly
once, for the captured IP only; a non-matching record increments once per
IP-shaped substring it contains; and the two scenario inputs evaluate to
`{"10.0.0.5": 1}` and `{"1.1.1.1": 1, "2.2.2.2": 1}` respectively. -/
theorem claim_C7 :
    (∀ (line : String) (t : Tally) (k ip : String), searchFailed line.toList = some ip →
      tget (lineStep t line) k = tget t k + (if ip = k then 1 else 0)) ∧
    (∀ (line : String) (t : Tally) (k : String), searchFailed line.toList = none →
      tget (lineStep t line) k = tget t k + (findallIP line.toList).count k) ∧
    analyzeLogs ["Jan 1 00:00:00 host sshd: Failed password for root from 10.0.0.5 port 22"]
      = [("10.0.0.5", 1)] ∧
    analyzeLogs ["seen 1.1.1.1 and 2.2.2.2"] = [("1.1.1.1", 1), ("2.2.2.2", 1)] := by
  refine ⟨?_, ?_, by decide, by decide⟩
  · intro line t k ip hip
    unfold lineStep
    simp only [hip]
    exact tget_incr t ip k
  · intro line t k hn
    unfold lineStep
    simp only [hn]
    exact tget_foldl_incr k _ t

theorem claim_C7_witness :
    tget (lineStep [] "seen 1.1.1.1 and 2.2.2.2") "1.1.1.1" =
      tget ([] : Tally) "1.1.1.1" +
        (findallIP "seen 1.1.1.1 and 2.2.2.2".toList).count "1.1.1.1" :=
  claim_C7.2.1 "seen 1.1.1.1 and 2.2.2.2" [] "1.1.1.1" (by decide)

/-- Claim C5 is false on the code: on the partition below — classified
tabular (commas), parse failing (a 3-field row against a 2-field header) —
the `except` recovery is plain per-line `re.findall` extraction, not the
free-form detector of §4.6: the "Failed password" line contributes both of
its IPs, while the free-form detector counts only the captured `1.2.3.4`,
so the fallback tally differs from the free-form tally at `5.6.7.8`. -/
theorem claim_C5_counterexample :
    isTabularSample (sampleOf ["h1,h2", "x,y,z",
        "Failed password for root from 1.2.3.4 said 5.6.7.8"]) = true ∧
    parseTable (sniffDelim (sampleOf ["h1,h2", "x,y,z",
        "Failed password for root from 1.2.3.4 said 5.6.7.8"]))
      ["h1,h2", "x,y,z", "Failed password for root from 1.2.3.4 said 5.6.7.8"] = none ∧
    tget (analyzeLogs ["h1,h2", "x,y,z",
        "Failed password for root from 1.2.3.4 said 5.6.7.8"]) "5.6.7.8" = 1 ∧
    tget (freeformTally ["h1,h2", "x,y,z",
        "Failed password for root from 1.2.3.4 said 5.6.7.8"]) "5.6.7.8" = 0 :=
  ⟨by decide, by decide, by decide, by decide⟩

/-- Claim C5 (amended): when a partition is classified tabular and its
parse fails, the detector recovers locally (the function is total, nothing
escalates) by plain every-IP extraction over the raw partition: each
record contributes one increment per IP-shaped substring, with no
Failed-password preference. -/
theorem claim_C5_amended (chunk : List String)
    (ht : isTabularSample (sampleOf chunk) = true)
    (hp : parseTable (sniffDelim (sampleOf chunk)) chunk = none) :
    ∀ k, tget (analyzeLogs chunk) k =
      (chunk.map (fun line => (findallIP line.toList).count k)).sum := by
  intro k
  unfold analyzeLogs
  simp only [ht, hp, if_true]
  exact tget_fallbackTally chunk k

theorem claim_C5_witness :
    tget (analyzeLogs ["h1,h2", "x,y,z",
        "Failed password for root from 1.2.3.4 said 5.6.7.8"]) "1.2.3.4" =
      (["h1,h2", "x,y,z", "Failed password for root from 1.2.3.4 said 5.6.7.8"].map
        (fun line => (findallIP line.toList).count "1.2.3.4")).sum :=
  claim_C5_amended ["h1,h2", "x,y,z", "Failed password for root from 1.2.3.4 said 5.6.7.8"]
    (by decide) (by decide) "1.2.3.4"

/-- Claim C6: in the tabular row scan, for a row whose source-IP value is
usable (nonempty, not "nan") and whose attack column is present with a
nonempty name: a nonempty trimmed attack value that lower-cases into the
benign set {"0", "-", "normal", "benign", "none", ""} never increments via
the attack branch (the tally is returned unchanged); the branch increments
exactly when the nonempty trimmed value is outside the benign set; an
empty trimmed attack value routes the row to the trailing-columns check
instead; and an increment never leaves the tally unchanged. -/
theorem claim_C6 (cols row : List String) (src ac : String) (t : Tally)
    (hsrc : cols.contains src = true)
    (hval1 : pyStrip (cellD cols row src) ≠ "")
    (hval2 : pyLower (pyStrip (cellD cols row src)) ≠ "nan")
    (hac : ac ≠ "") :
    (pyStrip (cellD cols row ac) ≠ "" →
      pyLower (pyStrip (cellD cols row ac)) ∈ benignSet →
        rowStep cols src (some ac) t row = t) ∧
    (pyStrip (cellD cols row ac) ≠ "" →
      pyLower (pyStrip (cellD cols row ac)) ∉ benignSet →
        rowStep cols src (some ac) t row = incr t (pyStrip (cellD cols row src))) ∧
    (pyStrip (cellD cols row ac) = "" →
      rowStep cols src (some ac) t row =
        (if tailHit row then incr t (pyStrip (cellD cols row src)) else t)) ∧
    incr t (pyStrip (cellD cols row src)) ≠ t := by
  have hbase : rowStep cols src (some ac) t row =
      (if pyStrip (cellD cols row ac) ≠ "" then
        (if pyLower (pyStrip (cellD cols row ac)) ∈ benignSet then t
         else incr t (pyStrip (cellD cols row src)))
       else if tailHit row then incr t (pyStrip (cellD cols row src)) else t) := by
    unfold rowStep
    simp only [hsrc, if_true]
    rw [if_neg (by
      rintro (h | h)
      · exact hval1 h
      · exact hval2 h)]
    simp [hac]
  refine ⟨?_, ?_, ?_, ?_⟩
  · intro hne hben
    rw [hbase, if_pos hne, if_pos hben]
  · intro hne hben
    rw [hbase, if_pos hne, if_neg hben]
  · intro hemp
    rw [hbase, if_neg (by simpa using hemp)]
  · intro heq
    have h1 := tget_incr t (pyStrip (cellD cols row src)) (pyStrip (cellD cols row src))
    rw [heq] at h1
    simp at h1

theorem claim_C6_witness :
    rowStep ["src_ip", "label"] "src_ip" (some "label") [] ["9.9.9.9", "benign"] = [] :=
  (claim_C6 ["src_ip", "label"] ["9.9.9.9", "benign"] "src_ip" "label" []
    (by decide) (by decide) (by decide) (by decide)).1 (by decide) (by decide)

end PLA

namespace PLA

/-! ## The frequency fallback characterised -/

lemma mem_dedupL_aux : ∀ (l acc : List String) (v : String),
    v ∈ l.foldl (fun acc v => if acc.contains v then acc else acc ++ [v]) acc ↔
      v ∈ acc ∨ v ∈ l := by
  intro l
  induction l with
  | nil => intro acc v; simp
  | cons a l ih =>
    intro acc v
    simp only [List.foldl_cons]
    by_cases h : acc.contains a
    · rw [if_pos h, ih]
      have ha : a ∈ acc := by simpa using h
      constructor
      · rintro (hv | hv)
        · exact Or.inl hv
        · exact Or.inr (List.mem_cons_of_mem a hv)
      · rintro (hv | hv)
        · exact Or.inl hv
        · rcases List.mem_cons.mp hv with rfl | hv2
          · exact Or.inl ha
          · exact Or.inr hv2
    · rw [if_neg h, ih]
      constructor
      · rintro (hv | hv)
        · rcases List.mem_append.mp hv with hv2 | hv2
          · exact Or.inl hv2
          · have hva : v = a := by simpa using hv2
            subst hva
            exact Or.inr (List.mem_cons_self v l)
        · exact Or.inr (List.mem_cons_of_mem a hv)
      · rintro (hv | hv)
        · exact Or.inl (List.mem_append.mpr (Or.inl hv))
        · rcases List.mem_cons.mp hv with rfl | hv2
          · exact Or.inl (List.mem_append.mpr (Or.inr (by simp)))
          · exact Or.inr hv2

lemma mem_dedupL (l : List String) (v : String) : v ∈ dedupL l ↔ v ∈ l := by
  unfold dedupL
  rw [mem_dedupL_aux]
  simp

lemma nodup_dedupL_aux : ∀ (l acc : List String), acc.Nodup →
    (l.foldl (fun acc v => if acc.contains v then acc else acc ++ [v]) acc).Nodup := by
  intro l
  induction l with
  | nil => intro acc h; exact h
  | cons a l ih =>
    intro acc h
    simp only [List.foldl_cons]
    by_cases hm : acc.contains a
    · rw [if_pos hm]
      exact ih acc h
    · rw [if_neg hm]
      apply ih
      simp only [List.nodup_append, List.nodup_cons, List.nodup_nil]
      refine ⟨h, ⟨by simp, trivial⟩, ?_⟩
      intro x hx hxa
      have hxa' : x = a := by simpa using hxa
      subst hxa'
      exact absurd (by simpa using hx : acc.contains x = true) (by simpa using hm)

lemma nodup_dedupL (l : List String) : (dedupL l).Nodup :=
  nodup_dedupL_aux l [] (by simp)

lemma tget_freq_fold (vals : List String) (v : String) :
    ∀ (ds : List String) (acc : Tally), ds.Nodup →
      tget (ds.foldl (fun t u =>
          if ipAtStart u = true ∧ 1 < vals.count u then setval t u (vals.count u) else t) acc) v =
        if v ∈ ds ∧ ipAtStart v = true ∧ 1 < vals.count v then vals.count v else tget acc v := by
  intro ds
  induction ds with
  | nil => intro acc _; simp
  | cons d ds ih =>
    intro acc hnd
    simp only [List.foldl_cons]
    have hnd' : ds.Nodup := (List.nodup_cons.mp hnd).2
    have hdds : d ∉ ds := (List.nodup_cons.mp hnd).1
    rw [ih _ hnd']
    by_cases hv : v = d
    · subst hv
      have hvds : v ∉ ds := hdds
      rw [if_neg (by rintro ⟨hm, _⟩; exact hvds hm)]
      by_cases hc : ipAtStart v = true ∧ 1 < vals.count v
      · rw [if_pos hc, if_pos ⟨by simp, hc⟩, tget_setval_self]
      · rw [if_neg hc, if_neg (by rintro ⟨_, hc2⟩; exact hc hc2)]
    · have hmem : (v ∈ d :: ds ∧ ipAtStart v = true ∧ 1 < vals.count v) ↔
          (v ∈ ds ∧ ipAtStart v = true ∧ 1 < vals.count v) := by
        constructor
        · rintro ⟨hm, hrest⟩
          rcases List.mem_cons.mp hm with rfl | hm
          · exact absurd rfl hv
          · exact ⟨hm, hrest⟩
        · rintro ⟨hm, hrest⟩
          exact ⟨by simp [hm], hrest⟩
      simp only [hmem]
      by_cases hcond : v ∈ ds ∧ ipAtStart v = true ∧ 1 < vals.count v
      · rw [if_pos hcond, if_pos hcond]
      · rw [if_neg hcond, if_neg hcond]
        by_cases hc : ipAtStart d = true ∧ 1 < vals.count d
        · rw [if_pos hc, tget_setval_ne _ _ _ _ hv]
        · rw [if_neg hc]

lemma tget_freqTally (vals : List String) (v : String) :
    tget (freqTally vals) v =
      if ipAtStart v = true ∧ 1 < vals.count v then vals.count v else 0 := by
  unfold freqTally
  rw [tget_freq_fold vals v (dedupL vals) [] (nodup_dedupL vals)]
  by_cases hc : ipAtStart v = true ∧ 1 < vals.count v
  · have hmem : v ∈ dedupL vals := by
      rw [mem_dedupL]
      exact List.count_pos_iff.mp (by omega)
    rw [if_pos ⟨hmem, hc⟩, if_pos hc]
  · rw [if_neg (by rintro ⟨_, hc2⟩; exact hc hc2), if_neg hc]
    rfl

/-- Claim C8: after the row scan, if the tally is empty and a source
column was identified (a nonempty name), the frequency fallback binds
exactly the source-column values that are IP-shaped at their start and
occur more than once, each with its occurrence frequency; values occurring
exactly once are never added.  On the scenario-E table (source column
`5.5.5.5 ×3`, `6.6.6.6 ×1`, all labels benign) the result is exactly
`{"5.5.5.5": 3}`. -/
theorem claim_C8 (T : Table) (h1 : rowScan T = []) (h2 : find_src_col T ≠ "") :
    (∀ v, tget (analyzeTabular T) v =
      if ipAtStart v = true ∧ 1 < (colVals T (find_src_col T)).count v
      then (colVals T (find_src_col T)).count v else 0) ∧
    analyzeTabular tableE = [("5.5.5.5", 3)] := by
  refine ⟨?_, by decide⟩
  intro v
  show tget (if rowScan T = [] ∧ find_src_col T ≠ "" then
      freqTally (colVals T (find_src_col T)) else rowScan T) v = _
  rw [if_pos ⟨h1, h2⟩]
  exact tget_freqTally _ v

theorem claim_C8_witness :
    tget (analyzeTabular tableE) "5.5.5.5" =
      (if ipAtStart "5.5.5.5" = true ∧
          1 < (colVals tableE (find_src_col tableE)).count "5.5.5.5"
       then (colVals tableE (find_src_col tableE)).count "5.5.5.5" else 0) ∧
    tget (analyzeTabular tableE) "6.6.6.6" =
      (if ipAtStart "6.6.6.6" = true ∧
          1 < (colVals tableE (find_src_col tableE)).count "6.6.6.6"
       then (colVals tableE (find_src_col tableE)).count "6.6.6.6" else 0) :=
  ⟨(claim_C8 tableE (by decide) (by decide)).1 "5.5.5.5",
   (claim_C8 tableE (by decide) (by decide)).1 "6.6.6.6"⟩

end PLA

namespace PLA

/-! ## ColumnInferencer characterised -/

lemma findIdx?_getD_eq_find? (q : String → Bool) (d : String) : ∀ (l : List String),
    (l.findIdx? q).map (fun i => l.getD i d) = l.find? q := by
  intro l
  induction l with
  | nil => rfl
  | cons a l ih =>
    rw [List.findIdx?_cons]
    by_cases h : q a
    · rw [if_pos h, List.find?_cons_of_pos _ h]
      simp
    · rw [if_neg h, List.find?_cons_of_neg _ h, List.findIdx?_succ, ← ih,
        Option.map_map]
      rfl

/-- The name-based rule of `find_src_col` as a predicate on a column. -/
def srcNameMatch (c : String) : Bool := srcNameHit (pyLower c)

/-- The content-based rule of `find_src_col` as a predicate on a column. -/
def srcContentMatch (T : Table) (c : String) : Bool :=
  srcThreshold ((colVals T c).take 200) ≤ ipOccCount ((colVals T c).take 200)

lemma find_src_col_eq (T : Table) :
    find_src_col T =
      (match T.cols.find? srcNameMatch with
       | some c => c
       | none =>
         match T.cols.find? (srcContentMatch T) with
         | some c => c
         | none => T.cols.headD "") := by
  unfold find_src_col
  dsimp only
  rw [List.findIdx?_map]
  have hbr := findIdx?_getD_eq_find? (srcNameHit ∘ pyLower) "" T.cols
  cases hidx : T.cols.findIdx? (srcNameHit ∘ pyLower) with
  | some i =>
    rw [hidx] at hbr
    have hfind : T.cols.find? srcNameMatch = some (T.cols.getD i "") := by
      rw [show T.cols.find? srcNameMatch = T.cols.find? (srcNameHit ∘ pyLower) from rfl, ← hbr]
      rfl
    rw [hfind]
  | none =>
    rw [hidx] at hbr
    have hfind : T.cols.find? srcNameMatch = none := by
      rw [show T.cols.find? srcNameMatch = T.cols.find? (srcNameHit ∘ pyLower) from rfl, ← hbr]
      rfl
    rw [hfind]
    rfl

/-- Claim C9 is false on the code: on `tableC9` (no name hit; twenty rows,
so the content threshold is 2; one sampled value of column "a" contains
two IP-shaped substrings) the code counts IP occurrences and selects "a",
while the claim's value-counting rule rejects both columns and falls back
to the first column "b". -/
theorem claim_C9_counterexample :
    find_src_col tableC9 = "a" ∧ findSrcColClaim tableC9 = "b" ∧
      find_src_col tableC9 ≠ findSrcColClaim tableC9 :=
  ⟨by decide, by decide, by decide⟩

/-- Claim C9 (amended): for a table with at least one column,
`find_src_col` always returns one of the table's columns (never null): the
first column whose lower-cased name contains one of src/source/sip/src_ip/
source_ip; otherwise the first column whose sample of up to 200 values
contains at least `max(1, min(10, sampleSize/10))` IP-shaped substring
*occurrences* (one value with several IPs counts several times); otherwise
the first column. -/
theorem claim_C9_amended (T : Table) (hne : T.cols ≠ []) :
    find_src_col T ∈ T.cols ∧
    (∀ c, T.cols.find? srcNameMatch = some c → find_src_col T = c) ∧
    (T.cols.find? srcNameMatch = none →
      ∀ c, T.cols.find? (srcContentMatch T) = some c → find_src_col T = c) ∧
    (T.cols.find? srcNameMatch = none → T.cols.find? (srcContentMatch T) = none →
      find_src_col T = T.cols.headD "") := by
  refine ⟨?_, ?_, ?_, ?_⟩
  · rw [find_src_col_eq]
    cases h1 : T.cols.find? srcNameMatch with
    | some c => exact List.mem_of_find?_eq_some h1
    | none =>
      cases h2 : T.cols.find? (srcContentMatch T) with
      | some c => exact List.mem_of_find?_eq_some h2
      | none =>
        cases hc : T.cols with
        | nil => exact absurd hc hne
        | cons a l => simp
  · intro c hc
    rw [find_src_col_eq, hc]
  · intro h1 c hc
    rw [find_src_col_eq, h1, hc]
  · intro h1 h2
    rw [find_src_col_eq, h1, h2]

theorem claim_C9_witness : find_src_col tableE = "src_ip" :=
  (claim_C9_amended tableE (by decide)).2.1 "src_ip" (by decide)

end PLA

namespace PLA

/-- Claim C4 is false on the code: the unsupported-extension `ValueError`
is raised *inside* the `try` of `load_data`, so the `except Exception`
handler wraps it into the very same `RuntimeError` kind that wraps read
failures — the caller cannot distinguish the two failure kinds by type. -/
theorem claim_C4_counterexample :
    load_data "a.xyz" (Except.ok ["r"]) =
      .error (.runtimeError "Error loading file a.xyz: Unsupported file type: .xyz") ∧
    load_data "b.csv" (Except.error "disk") =
      .error (.runtimeError "Error loading file b.csv: disk") ∧
    ¬ ∃ m, load_data "a.xyz" (Except.ok ["r"]) = .error (.valueError m) := by
  refine ⟨rfl, rfl, ?_⟩
  rintro ⟨m, hm⟩
  rw [show load_data "a.xyz" (Except.ok ["r"]) =
      .error (.runtimeError "Error loading file a.xyz: Unsupported file type: .xyz")
    from rfl] at hm
  simp at hm

/-- Claim C4 (amended): `load_data` rejects an unrecognized extension
before reading, but every failure — the unsupported-extension case
included — surfaces as the single wrapper kind
`RuntimeError("Error loading file <path>: …")`; the two cases are
distinguishable only by message text ("Unsupported file type: <ext>"
versus the wrapped read error).  A recognized extension propagates the
read's records unchanged or wraps the read error; an unsupported
extension aborts `main` before any partitioning. -/
theorem claim_C4_amended (path : String) (fileRead : Except String (List String)) :
    (recognizedExt (extOf path) = false →
      load_data path fileRead = .error (.runtimeError
        ("Error loading file " ++ path ++ ": " ++ ("Unsupported file type: " ++ extOf path)))) ∧
    (∀ e, recognizedExt (extOf path) = true → fileRead = Except.error e →
      load_data path fileRead =
        .error (.runtimeError ("Error loading file " ++ path ++ ": " ++ e))) ∧
    (∀ v, recognizedExt (extOf path) = true → fileRead = Except.ok v →
      load_data path fileRead = Except.ok v) ∧
    (∀ w, recognizedExt (extOf path) = false →
      mainModel path fileRead w = .err (.runtimeError
        ("Error loading file " ++ path ++ ": " ++ ("Unsupported file type: " ++ extOf path)))) := by
  refine ⟨?_, ?_, ?_, ?_⟩
  · intro h
    simp [load_data, h]
  · intro e _ hr
    subst hr
    unfold load_data
    dsimp only
    split <;> simp_all
  · intro v _ hr
    subst hr
    unfold load_data
    dsimp only
    split <;> simp_all
  · intro w h
    unfold mainModel
    rw [show load_data path fileRead = .error (.runtimeError
        ("Error loading file " ++ path ++ ": " ++ ("Unsupported file type: " ++ extOf path))) from by
      simp [load_data, h]]

theorem claim_C4_witness :
    load_data "c.foo" (Except.ok ["x"]) = .error (.runtimeError
      ("Error loading file " ++ "c.foo" ++ ": " ++ ("Unsupported file type: " ++ extOf "c.foo"))) :=
  (claim_C4_amended "c.foo" (Except.ok ["x"])).1 (by decide)

end PLA
